import Mathlib

/-!
# ContentReaper — verification of the core specification

A shallow embedding, in Lean 4, of the parts of the ContentReaper code base
(`lib/sanitizer.py`, `lib/state_manager.py`, `lib/worker.py`, `lib/scheduler.py`)
that the specification's testable properties talk about, together with theorems
settling those properties.

Conventions of the embedding:
* Python strings are modelled as `List Char` (Lean `String.data`); UTF-8 byte
  counts use `Char.utf8Size`.
* `unicodedata.normalize('NFC', s)` is modelled as the identity.  The model is
  exact on NFC-normal inputs (in particular on every ASCII string); all
  concrete inputs appearing in counterexamples below are ASCII.
* Python dictionaries with string keys are modelled as insertion-ordered
  association lists `List (String × PyVal)`; `dict.update` keeps the position
  of existing keys and appends new ones, as CPython does.
* File-system state is modelled as lists of basenames per directory; `shutil.move`
  onto an existing basename overwrites it (POSIX `os.rename` semantics).
* I/O that cannot fail in the model (logging, `save_state` persistence) is
  dropped; the in-memory state transition is kept exactly.
-/

namespace ContentReaper

set_option maxRecDepth 16000

/-- A flattened Python value, sufficient for the fields the spec's claims
inspect (ints, strings, booleans, `None`). -/
inductive PyVal where
  | pynone
  | pybool (b : Bool)
  | pyint (n : Int)
  | pystr (s : String)
deriving DecidableEq, Repr

/-- Python truthiness for `PyVal`. -/
def PyVal.truthy : PyVal → Bool
  | .pynone => false
  | .pybool b => b
  | .pyint n => n ≠ 0
  | .pystr s => s ≠ ""

/-- A Python dict with string keys, as an insertion-ordered association list. -/
abbrev PyDict := List (String × PyVal)

/-- `d.get(k)`: first binding of `k`, if any. -/
def dictGet (d : PyDict) (k : String) : Option PyVal :=
  (d.find? (fun kv => kv.1 == k)).map (·.2)

/-- `d[k] = v`: overwrite in place if the key exists, else append. -/
def dictSet (d : PyDict) (k : String) (v : PyVal) : PyDict :=
  if d.any (fun kv => kv.1 == k) then
    d.map (fun kv => if kv.1 == k then (k, v) else kv)
  else d ++ [(k, v)]

/-- `d.update(data)`: left-to-right `dictSet` of every binding of `data`. -/
def dictUpdate (d data : PyDict) : PyDict :=
  data.foldl (fun acc kv => dictSet acc kv.1 kv.2) d

/-! ## Sanitizer (`lib/sanitizer.py`) -/

/-- The characters replaced by step 2 of `sanitize_filename`:
ASCII control characters `\x00-\x1f` and `\ / ? * : " < > |`
(regex `[\x00-\x1f\\/?*:"<>|]+`). -/
def illegalChar (c : Char) : Bool :=
  c.val ≤ 0x1f || c = '\\' || c = '/' || c = '?' || c = '*' ||
  c = ':' || c = '"' || c = '<' || c = '>' || c = '|'

/-- Python's `\s` / `str.isspace` character class (for `str` patterns):
ASCII whitespace, the C1 separators, and the Unicode space separators. -/
def pySpace (c : Char) : Bool :=
  c = ' ' || (0x09 ≤ c.val && c.val ≤ 0x0d) || (0x1c ≤ c.val && c.val ≤ 0x1f) ||
  c.val = 0x85 || c.val = 0xa0 || c.val = 0x1680 ||
  (0x2000 ≤ c.val && c.val ≤ 0x200a) ||
  c.val = 0x2028 || c.val = 0x2029 || c.val = 0x202f || c.val = 0x205f ||
  c.val = 0x3000

mutual
/-- `re.sub(r'[\x00-\x1f\\/?*:"<>|]+', '-', s)`: replace every maximal run of
illegal characters with a single `-`. -/
def replIllegal : List Char → List Char
  | [] => []
  | c :: rest => if illegalChar c then '-' :: skipIllegal rest else c :: replIllegal rest

/-- Helper of `replIllegal`: consume the rest of a run of illegal characters. -/
def skipIllegal : List Char → List Char
  | [] => []
  | c :: rest => if illegalChar c then skipIllegal rest else c :: replIllegal rest
end

mutual
/-- `re.sub(r'\s+', ' ', s)`: replace every maximal whitespace run with one space. -/
def collapseWs : List Char → List Char
  | [] => []
  | c :: rest => if pySpace c then ' ' :: skipWs rest else c :: collapseWs rest

/-- Helper of `collapseWs`: consume the rest of a whitespace run. -/
def skipWs : List Char → List Char
  | [] => []
  | c :: rest => if pySpace c then skipWs rest else c :: collapseWs rest
end

/-- Python `str.strip`-style stripping of characters satisfying `p` from both ends. -/
def stripWhile (p : Char → Bool) (cs : List Char) : List Char :=
  ((cs.dropWhile p).reverse.dropWhile p).reverse

/-- `s.rpartition('.')` restricted to what `sanitize_filename` uses:
`some (stem, ext)` when the string contains a dot (split at the last one),
`none` otherwise. -/
def rsplitDot (cs : List Char) : Option (List Char × List Char) :=
  if cs.contains '.' then
    let rev := cs.reverse
    some (((rev.dropWhile (· ≠ '.')).drop 1).reverse, (rev.takeWhile (· ≠ '.')).reverse)
  else none

/-- `WINDOWS_RESERVED_NAMES` from `lib/sanitizer.py`. -/
def WINDOWS_RESERVED_NAMES : List String :=
  ["CON", "PRN", "AUX", "NUL",
   "COM1", "COM2", "COM3", "COM4", "COM5", "COM6", "COM7", "COM8", "COM9",
   "LPT1", "LPT2", "LPT3", "LPT4", "LPT5", "LPT6", "LPT7", "LPT8", "LPT9"]

/-- `check_name.upper() in WINDOWS_RESERVED_NAMES` (the reserved names are ASCII,
so ASCII uppercasing decides membership). -/
def isReserved (cs : List Char) : Bool :=
  WINDOWS_RESERVED_NAMES.contains (String.mk (cs.map Char.toUpper))

/-- UTF-8 byte length of a character list (`len(s.encode('utf-8'))`). -/
def utf8Len (cs : List Char) : Nat :=
  (cs.map Char.utf8Size).sum

/-- Longest prefix whose UTF-8 encoding fits in `n` bytes: this is
`s.encode('utf-8')[:n].decode('utf-8', 'ignore')` for `n ≥ 0`, since `ignore`
drops the trailing bytes of a character cut in half. -/
def byteTruncate : Nat → List Char → List Char
  | _, [] => []
  | n, c :: rest =>
    if c.utf8Size ≤ n then c :: byteTruncate (n - c.utf8Size) rest else []

/-- Python byte slicing `s.encode('utf-8')[:k]` (then decoded with `ignore`)
for a possibly *negative* bound `k`: a negative `k` keeps all but the last
`-k` bytes, clamped at zero. -/
def pyByteSlice (k : Int) (cs : List Char) : List Char :=
  let len : Int := (utf8Len cs : Int)
  let eff : Nat := (if 0 ≤ k then min k len else max 0 (len + k)).toNat
  byteTruncate eff cs

/-- `MAX_FILENAME_LENGTH` from `lib/sanitizer.py`. -/
def MAX_FILENAME_LENGTH : Nat := 240

/-- The string whose upper-cased form is tested against the reserved list:
the stem before the last dot when there is one, the whole name otherwise. -/
def checkNameOf (cs : List Char) : List Char :=
  match rsplitDot cs with
  | some (stem, _) => stem
  | none => cs

/-- Steps 2–5 of `sanitize_filename`: illegal-character replacement, whitespace
collapsing, `.strip()`, `.strip('.')`, and the reserved-name underscore prefix. -/
def sanitizeStages (cs : List Char) : List Char :=
  let s2 := replIllegal cs
  let s3 := stripWhile pySpace (collapseWs s2)
  let s4 := stripWhile (· = '.') s3
  if isReserved (checkNameOf s4) then '_' :: s4 else s4

/-- Step 6 of `sanitize_filename`: byte-length truncation preserving the
extension (`max_name_len` may be negative, giving a Python negative slice). -/
def sanitizeTrunc (s5 : List Char) : List Char :=
  if utf8Len s5 > MAX_FILENAME_LENGTH then
    match rsplitDot s5 with
    | some (stem, ext) =>
        let maxNameLen : Int :=
          (MAX_FILENAME_LENGTH : Int) - 1 - (utf8Len ext : Int)
        pyByteSlice maxNameLen stem ++ '.' :: ext
    | none => byteTruncate MAX_FILENAME_LENGTH s5
  else s5

/-- `sanitize_filename` from `lib/sanitizer.py` over character lists
(NFC normalization modelled as the identity; exact on ASCII input). -/
def sanitizeCore (cs : List Char) : List Char :=
  if cs.isEmpty then "Untitled".data
  else
    let s6 := sanitizeTrunc (sanitizeStages cs)
    if (stripWhile pySpace s6).isEmpty then "Untitled".data else s6

/-- `sanitize_filename` on strings. -/
def sanitize_filename (s : String) : String :=
  String.mk (sanitizeCore s.data)

/-- The truncation step stays within the cap when either no truncation is
needed, or the extension kept aside is at most 239 bytes (so that
`max_name_len` is non-negative).  A Python extension of 240 bytes or more
makes `max_name_len` negative, and the negative byte slice then keeps most
of the stem. -/
def truncExtSafe (cs : List Char) : Bool :=
  utf8Len (sanitizeStages cs) ≤ MAX_FILENAME_LENGTH ||
  (match rsplitDot (sanitizeStages cs) with
   | none => true
   | some (_, ext) => utf8Len ext ≤ MAX_FILENAME_LENGTH - 1)

/-! ## StateManager (`lib/state_manager.py`)

Queue entries are dicts carrying an `'id'` key: every job placed in the queue
has been given one, by `add_to_queue` or by `_apply_state`, so they are
modelled as a structure with the id split out and the rest of the dict kept
as a payload.  History entries stay plain dicts, since `add_to_history`
writes `'log_id'` as an ordinary key.  `save_state` (file persistence) is
I/O and is dropped; version counters, id counters and the pause flag are
kept exactly. -/

/-- One queued job dict: its `'id'` entry plus the rest of the dict. -/
structure QJob where
  id : Int
  payload : PyDict
deriving DecidableEq, Repr

/-- The in-memory state owned by `StateManager`. -/
structure SMState where
  queue : List QJob
  history : List PyDict
  current : PyDict
  paused : Bool
  next_log_id : Int
  next_queue_id : Int
  history_state_version : Nat
  queue_state_version : Nat
  current_download_version : Nat
deriving DecidableEq, Repr

/-- `_get_default_current_download`. -/
def defaultCurrentDownload : PyDict :=
  [("url", .pynone), ("job_data", .pynone), ("progress", .pyint 0),
   ("status", .pystr ""), ("title", .pynone), ("thumbnail", .pynone),
   ("playlist_title", .pynone), ("track_title", .pynone),
   ("playlist_count", .pyint 0), ("playlist_index", .pyint 0),
   ("speed", .pynone), ("eta", .pynone), ("file_size", .pynone),
   ("log_path", .pynone)]

/-- The state of a fresh `StateManager` (`__init__`): empty queue/history,
default current download, counters at zero, queue not paused. -/
def SMState.init : SMState :=
  { queue := [], history := [], current := defaultCurrentDownload,
    paused := false, next_log_id := 0, next_queue_id := 0,
    history_state_version := 0, queue_state_version := 0,
    current_download_version := 0 }

/-- `reset_current_download`. -/
def resetCurrentDownload (s : SMState) : SMState :=
  { s with current := defaultCurrentDownload,
           current_download_version := s.current_download_version + 1 }

/-- `update_current_download(data)`. -/
def updateCurrentDownload (s : SMState) (data : PyDict) : SMState :=
  { s with current := dictUpdate s.current data,
           current_download_version := s.current_download_version + 1 }

/-- `pause_queue`. -/
def pauseQueue (s : SMState) : SMState :=
  { s with paused := true,
           current_download_version := s.current_download_version + 1 }

/-- `resume_queue`. -/
def resumeQueue (s : SMState) : SMState :=
  { s with paused := false,
           current_download_version := s.current_download_version + 1 }

/-- `add_to_queue(job_data)`: stamp the job with `next_queue_id`, advance the
counter, append, bump the queue version; returns the assigned id. -/
def addToQueue (s : SMState) (j : QJob) : SMState × Int :=
  ({ s with queue := s.queue ++ [{ j with id := s.next_queue_id }],
            next_queue_id := s.next_queue_id + 1,
            queue_state_version := s.queue_state_version + 1 },
   s.next_queue_id)

/-- `clear_queue`: a no-op (no version bump) when the queue is already empty. -/
def clearQueue (s : SMState) : SMState :=
  if s.queue.isEmpty then s
  else { s with queue := [],
                queue_state_version := s.queue_state_version + 1 }

/-- `delete_from_queue(job_id)`: version bump only if something was removed. -/
def deleteFromQueue (s : SMState) (job_id : Int) : SMState :=
  let updated := s.queue.filter (fun j => j.id ≠ job_id)
  if updated.length < s.queue.length then
    { s with queue := updated,
             queue_state_version := s.queue_state_version + 1 }
  else s

/-- `item_map[job_id]` where `item_map = {item['id']: item for item in items}`:
in a dict comprehension the *last* item with a given id wins. -/
def lookupById (items : List QJob) (i : Int) : Option QJob :=
  items.reverse.find? (fun it => it.id == i)

/-- The queue rebuilt by `reorder_queue`: known mentioned ids in the given
order, then the unmentioned items in their prior order. -/
def reorderList (items : List QJob) (ordered_ids : List Int) : List QJob :=
  (ordered_ids.filterMap (lookupById items)) ++
  items.filter (fun it => ¬ ordered_ids.contains it.id)

/-- `reorder_queue(ordered_ids)`: rebuild the queue and bump the version
(the bump is unconditional in the source). -/
def reorderQueue (s : SMState) (ordered_ids : List Int) : SMState :=
  { s with queue := reorderList s.queue ordered_ids,
           queue_state_version := s.queue_state_version + 1 }

/-- `add_to_history(history_item)`: stamp `'log_id'` with `next_log_id`,
advance the counter, append, bump the history version; returns the id. -/
def addToHistory (s : SMState) (item : PyDict) : SMState × Int :=
  ({ s with history := s.history ++ [dictSet item "log_id" (.pyint s.next_log_id)],
            next_log_id := s.next_log_id + 1,
            history_state_version := s.history_state_version + 1 },
   s.next_log_id)

/-- `item.get("log_id") == log_id` for a history dict. -/
def hasLogId (item : PyDict) (log_id : Int) : Bool :=
  dictGet item "log_id" == some (.pyint log_id)

/-- `update_history_item(log_id, data)`: update the *first* matching item and
bump the version; no bump when no item matches. -/
def updateHistoryItem (s : SMState) (log_id : Int) (data : PyDict) : SMState :=
  match s.history.findIdx? (fun it => hasLogId it log_id) with
  | none => s
  | some i =>
      { s with history := s.history.set i (dictUpdate (s.history.get! i) data),
               history_state_version := s.history_state_version + 1 }

/-- `clear_history`: a no-op (no version bump) when the history is empty.
(The returned log paths are I/O bookkeeping and are dropped.) -/
def clearHistory (s : SMState) : SMState :=
  if s.history.isEmpty then s
  else { s with history := [],
                history_state_version := s.history_state_version + 1 }

/-- `delete_from_history(log_id)`: version bump only when an item matches. -/
def deleteFromHistory (s : SMState) (log_id : Int) : SMState :=
  if s.history.any (fun it => hasLogId it log_id) then
    { s with history := s.history.filter (fun it => ¬ hasLogId it log_id),
             history_state_version := s.history_state_version + 1 }
  else s

/-- The public mutators of `StateManager`, as one operation type. -/
inductive SMOp where
  | opResetCurrent
  | opUpdateCurrent (data : PyDict)
  | opPause
  | opResume
  | opAddToQueue (j : QJob)
  | opClearQueue
  | opDeleteFromQueue (job_id : Int)
  | opReorderQueue (ordered_ids : List Int)
  | opAddToHistory (item : PyDict)
  | opUpdateHistoryItem (log_id : Int) (data : PyDict)
  | opClearHistory
  | opDeleteFromHistory (log_id : Int)
deriving DecidableEq

/-- The state transition of one mutator call (returned values dropped). -/
def SMOp.step (op : SMOp) (s : SMState) : SMState :=
  match op with
  | .opResetCurrent => resetCurrentDownload s
  | .opUpdateCurrent data => updateCurrentDownload s data
  | .opPause => pauseQueue s
  | .opResume => resumeQueue s
  | .opAddToQueue j => (addToQueue s j).1
  | .opClearQueue => clearQueue s
  | .opDeleteFromQueue job_id => deleteFromQueue s job_id
  | .opReorderQueue ids => reorderQueue s ids
  | .opAddToHistory item => (addToHistory s item).1
  | .opUpdateHistoryItem log_id data => updateHistoryItem s log_id data
  | .opClearHistory => clearHistory s
  | .opDeleteFromHistory log_id => deleteFromHistory s log_id

/-- Run a sequence of mutator calls. -/
def runOps (ops : List SMOp) (s : SMState) : SMState :=
  ops.foldl (fun st op => op.step st) s

/-! ## Scheduler (`lib/scheduler.py`)

`Scheduler._reap_scythe(scythe_id)` re-fetches the scythe through
`ScytheManager.get_by_id` and, when it is present, has truthy `job_data`
and an enabled schedule, proceeds to notify and enqueue.  The notify call
is `self.state_manager.add_notification_to_history(...)`; `StateManager`
(`lib/state_manager.py`) defines **no** attribute of that name, and no other
code in the repository adds one, so CPython raises `AttributeError` at that
call, before `add_to_queue` is reached.  The embedding keeps the control
flow exact and models the failing attribute lookup as an error outcome. -/

/-- A scythe record as loaded from the scythes file: the fields
`_reap_scythe` reads.  `schedule = none` models a record without a
`schedule` key (`scythe.get("schedule", {})`). -/
structure Scythe where
  id : Int
  name : String
  job_data : PyDict
  schedule : Option PyDict
deriving DecidableEq, Repr

/-- `scythe.get("schedule", {}).get("enabled")` truthiness. -/
def scytheEnabled (sc : Scythe) : Bool :=
  match sc.schedule with
  | none => false
  | some sched =>
      match dictGet sched "enabled" with
      | none => false
      | some v => v.truthy

/-- What one scheduled fire does. -/
inductive ReapOutcome where
  /-- Scythe missing or with falsy `job_data`: logged and skipped. -/
  | skippedMissing
  /-- Scythe present but its schedule is no longer enabled: logged and skipped. -/
  | skippedDisabled
  /-- `AttributeError`: `state_manager.add_notification_to_history` does not
  exist; the fire dies before any state mutation. -/
  | attributeError
deriving DecidableEq, Repr

/-- `Scheduler._reap_scythe(scythe_id)` over the state-manager state.
`lookup` is `ScytheManager.get_by_id`.  Returns the outcome together with
the (unchanged on every path) state. -/
def reapScythe (lookup : Int → Option Scythe) (scythe_id : Int)
    (s : SMState) : ReapOutcome × SMState :=
  match lookup scythe_id with
  | none => (.skippedMissing, s)
  | some sc =>
      -- `if not scythe or not scythe.get("job_data")`: a missing or empty
      -- job-data dict is falsy
      if sc.job_data.isEmpty then (.skippedMissing, s)
      else if ¬ scytheEnabled sc then (.skippedDisabled, s)
      else
        -- job_to_reap["resolved_folder"] = job_to_reap.get("folder") would
        -- run here; the very next statement is the attribute lookup
        -- `self.state_manager.add_notification_to_history`, which raises.
        (.attributeError, s)

/-! ## Worker finalize (`lib/worker.py`, `_finalize_job`)

The file system is modelled per directory as a list of basenames.
`shutil.move` onto an existing basename overwrites it.  The job log is kept
abstract: `_generate_error_summary` reads it only to build a text summary,
so the model records merely whether a summary was produced. -/

/-- The fields of the job dict that `_finalize_job` reads. -/
structure FJob where
  id : Int
  mode : Option String
  format : Option String
deriving DecidableEq, Repr

/-- The expected media extension: `music → job.get('format', 'mp3')`,
`video → job.get('format', 'mp4')`, `clip → mp3|mp4`, otherwise no filter. -/
def targetExt (job : FJob) : Option String :=
  match job.mode with
  | some "music" => some (job.format.getD "mp3")
  | some "video" => some (job.format.getD "mp4")
  | some "clip" => some (if job.format = some "audio" then "mp3" else "mp4")
  | _ => none

/-- Python `s.endswith(post)` (structural, over the character lists). -/
def pyEndsWith (s post : String) : Bool :=
  post.data.isSuffixOf s.data

/-- `files_to_move`: with a known extension keep `f.endswith('.' + ext)`;
in custom mode keep everything not ending in `.temp.txt`. -/
def filesToMove (job : FJob) (scratchFiles : List String) : List String :=
  match targetExt job with
  | some ext => scratchFiles.filter (fun f => pyEndsWith f ("." ++ ext))
  | none => scratchFiles.filter (fun f => ¬ pyEndsWith f ".temp.txt")

/-- `shutil.move` of a basename into a directory listing: overwrite if the
name exists (POSIX `os.rename`), else append. -/
def fsMoveInto (dir : List String) (name : String) : List String :=
  if dir.contains name then dir else dir ++ [name]

/-- The media-move loop: move each file under its sanitized name, recording
the names in order.  Returns (destination listing, `final_filenames`). -/
def moveFiles (destInit : List String) (toMove : List String) :
    List String × List String :=
  toMove.foldl
    (fun acc f =>
      let safe := sanitize_filename f
      (fsMoveInto acc.1 safe, acc.2 ++ [safe]))
    (destInit, [])

/-- The outcome of `_finalize_job`. -/
structure FinalizeOut where
  /-- The (possibly reclassified) terminal status. -/
  status : String
  /-- `final_folder_name`. -/
  folder : String
  /-- `final_filenames`: sanitized basenames promoted into the folder. -/
  filenames : List String
  /-- Listing of the destination folder after the run. -/
  dest : List String
  /-- Scratch directory afterwards: `none`, it is removed (or never existed). -/
  scratch : Option (List String)
  /-- Whether an `error_summary` was generated. -/
  errorSummary : Bool
deriving DecidableEq, Repr

/-- `_finalize_job(job, final_status, …, resolved_folder_name)` over the
directory model.  `scratchFiles = none` models a scratch directory that does
not exist (`os.path.exists(temp_dir_path)` false). -/
def finalizeJob (job : FJob) (finalStatus : String)
    (resolvedFolder : Option String)
    (scratchFiles : Option (List String)) (destInit : List String) :
    FinalizeOut :=
  let folder :=
    let f := match resolvedFolder with
      | none => "Untitled"   -- sanitize_filename(None) returns "Untitled"
      | some r => sanitize_filename r
    if f = "" then "Misc Downloads" else f
  -- media move step (runs whenever the scratch directory exists)
  let moved := match scratchFiles with
    | none => ([], [])
    | some files => (filesToMove job files, files)
  let toMove := moved.1
  let inScratch := moved.2
  let mvRes := moveFiles destInit toMove
  let destAfterMedia := mvRes.1
  let filenames := mvRes.2
  let scratchAfterMedia := inScratch.filter (fun f => ¬ toMove.contains f)
  -- archive step: runs regardless of status (for a non-existent scratch
  -- directory the listing is empty and the check is false)
  let hasArchive := scratchAfterMedia.contains "archive.temp.txt"
  let destFinal :=
    if hasArchive then fsMoveInto destAfterMedia "archive.txt" else destAfterMedia
  -- FAILED → PARTIAL reclassification
  let status1 :=
    if finalStatus = "FAILED" ∧ filenames ≠ [] then "PARTIAL" else finalStatus
  let summary := status1 ∈ ["FAILED", "ERROR", "ABANDONED", "PARTIAL"]
  { status := status1, folder := folder, filenames := filenames,
    dest := destFinal, scratch := none, errorSummary := summary }

/-! ## Sanitizer lemmas

Structural invariants of `sanitize_filename` outputs: no illegal character
survives, and whitespace is normalized (every whitespace character is a
plain space and no two whitespace characters are adjacent).  These drive
the idempotence analysis (claim C2) and the forbidden-character half of
claim C9. -/

/-- No illegal character occurs in the list. -/
def NoIllegal (cs : List Char) : Prop :=
  ∀ c ∈ cs, illegalChar c = false

/-- Whitespace-normalized: every whitespace character is `' '`, and no two
adjacent characters are both whitespace. -/
def WsNormd (cs : List Char) : Prop :=
  (∀ c ∈ cs, pySpace c = true → c = ' ') ∧
  cs.Chain' (fun a b => ¬(pySpace a = true ∧ pySpace b = true))

theorem replIllegal_noIllegal (cs : List Char) :
    NoIllegal (replIllegal cs) ∧ NoIllegal (skipIllegal cs) := by
  induction cs with
  | nil => constructor <;> intro c hc <;> simp [replIllegal, skipIllegal] at hc
  | cons c rest ih =>
      constructor <;> intro d hd
      · rw [replIllegal] at hd
        cases h : illegalChar c
        · rw [if_neg (by simp [h])] at hd
          rcases List.mem_cons.mp hd with h1 | h1
          · exact h1 ▸ h
          · exact ih.1 d h1
        · rw [if_pos (by simp [h])] at hd
          rcases List.mem_cons.mp hd with h1 | h1
          · subst h1; decide
          · exact ih.2 d h1
      · rw [skipIllegal] at hd
        cases h : illegalChar c
        · rw [if_neg (by simp [h])] at hd
          rcases List.mem_cons.mp hd with h1 | h1
          · exact h1 ▸ h
          · exact ih.1 d h1
        · rw [if_pos (by simp [h])] at hd
          exact ih.2 d hd

theorem replIllegal_eq_self {cs : List Char} (h : NoIllegal cs) :
    replIllegal cs = cs := by
  induction cs with
  | nil => rfl
  | cons c rest ih =>
      have hc : illegalChar c = false := h c (List.mem_cons_self c rest)
      rw [replIllegal, hc]
      simp only [Bool.false_eq_true, if_false, List.cons.injEq, true_and]
      exact ih (fun d hd => h d (List.mem_cons_of_mem c hd))

/-- Characters of `collapseWs cs` (and `skipWs cs`) are characters of `cs`
or a plain space. -/
theorem mem_collapseWs (cs : List Char) :
    (∀ c ∈ collapseWs cs, c ∈ cs ∨ c = ' ') ∧
    (∀ c ∈ skipWs cs, c ∈ cs ∨ c = ' ') := by
  induction cs with
  | nil => constructor <;> intro c hc <;> simp [collapseWs, skipWs] at hc
  | cons c rest ih =>
      constructor <;> intro d hd
      · rw [collapseWs] at hd
        cases h : pySpace c
        · rw [if_neg (by simp [h])] at hd
          rcases List.mem_cons.mp hd with h1 | h1
          · exact Or.inl (h1 ▸ List.mem_cons_self c rest)
          · rcases ih.1 d h1 with h2 | h2
            · exact Or.inl (List.mem_cons_of_mem c h2)
            · exact Or.inr h2
        · rw [if_pos (by simp [h])] at hd
          rcases List.mem_cons.mp hd with h1 | h1
          · exact Or.inr h1
          · rcases ih.2 d h1 with h2 | h2
            · exact Or.inl (List.mem_cons_of_mem c h2)
            · exact Or.inr h2
      · rw [skipWs] at hd
        cases h : pySpace c
        · rw [if_neg (by simp [h])] at hd
          rcases List.mem_cons.mp hd with h1 | h1
          · exact Or.inl (h1 ▸ List.mem_cons_self c rest)
          · rcases ih.1 d h1 with h2 | h2
            · exact Or.inl (List.mem_cons_of_mem c h2)
            · exact Or.inr h2
        · rw [if_pos (by simp [h])] at hd
          rcases ih.2 d hd with h2 | h2
          · exact Or.inl (List.mem_cons_of_mem c h2)
          · exact Or.inr h2

/-- `collapseWs` produces a whitespace-normalized list; moreover `skipWs`
output never starts with whitespace. -/
theorem collapseWs_wsNormd (cs : List Char) :
    WsNormd (collapseWs cs) ∧
    (WsNormd (skipWs cs) ∧ ∀ h ∈ (skipWs cs).head?, pySpace h = false) := by
  induction cs with
  | nil =>
      refine ⟨⟨?_, ?_⟩, ⟨?_, ?_⟩, ?_⟩ <;> simp [collapseWs, skipWs]
  | cons c rest ih =>
      obtain ⟨⟨ihc1, ihc2⟩, ⟨⟨ihs1, ihs2⟩, ihs3⟩⟩ := ih
      by_cases h : pySpace c
      · refine ⟨⟨?_, ?_⟩, ⟨⟨?_, ?_⟩, ?_⟩⟩
        · intro d hd hsp
          rw [collapseWs, if_pos h] at hd
          rcases List.mem_cons.mp hd with h1 | h1
          · exact h1
          · exact ihs1 d h1 hsp
        · rw [collapseWs, if_pos h]
          rw [List.chain'_cons']
          refine ⟨?_, ihs2⟩
          intro y hy hcon
          exact absurd hcon.2 (by simpa using ihs3 y hy)
        · intro d hd; rw [skipWs, if_pos h] at hd; exact ihs1 d hd
        · rw [skipWs, if_pos h]; exact ihs2
        · intro d hd; rw [skipWs, if_pos h] at hd; exact ihs3 d hd
      · refine ⟨⟨?_, ?_⟩, ⟨⟨?_, ?_⟩, ?_⟩⟩
        · intro d hd hsp
          rw [collapseWs, if_neg h] at hd
          rcases List.mem_cons.mp hd with h1 | h1
          · exact absurd (h1 ▸ hsp) (by simpa using h)
          · exact ihc1 d h1 hsp
        · rw [collapseWs, if_neg h, List.chain'_cons']
          refine ⟨?_, ihc2⟩
          intro y _ hcon
          exact absurd hcon.1 (by simpa using h)
        · intro d hd hsp
          rw [skipWs, if_neg h] at hd
          rcases List.mem_cons.mp hd with h1 | h1
          · exact absurd (h1 ▸ hsp) (by simpa using h)
          · exact ihc1 d h1 hsp
        · rw [skipWs, if_neg h, List.chain'_cons']
          refine ⟨?_, ihc2⟩
          intro y _ hcon
          exact absurd hcon.1 (by simpa using h)
        · intro d hd
          rw [skipWs, if_neg h, List.head?_cons] at hd
          cases hd
          simpa using h

/-- On a whitespace-normalized list, `collapseWs` is the identity (and so is
`skipWs` when the list does not start with whitespace). -/
theorem collapseWs_eq_self_aux (cs : List Char) :
    (WsNormd cs → collapseWs cs = cs) ∧
    (WsNormd cs → (∀ h ∈ cs.head?, pySpace h = false) → skipWs cs = cs) := by
  induction cs with
  | nil => exact ⟨fun _ => rfl, fun _ _ => rfl⟩
  | cons c rest ih =>
      constructor
      · intro h
        obtain ⟨h1, h2⟩ := h
        rw [List.chain'_cons'] at h2
        have hrest : WsNormd rest :=
          ⟨fun d hd => h1 d (List.mem_cons_of_mem c hd), h2.2⟩
        by_cases hc : pySpace c
        · have hceq : c = ' ' := h1 c (List.mem_cons_self c rest) hc
          rw [collapseWs, if_pos hc]
          have hhead : ∀ h ∈ rest.head?, pySpace h = false := by
            intro y hy
            have := h2.1 y hy
            by_contra hcon
            exact this ⟨hc, by simpa using hcon⟩
          rw [ih.2 hrest hhead, hceq]
        · rw [collapseWs, if_neg hc]
          exact congrArg (c :: ·) (ih.1 hrest)
      · intro h hhead
        obtain ⟨h1, h2⟩ := h
        rw [List.chain'_cons'] at h2
        have hrest : WsNormd rest :=
          ⟨fun d hd => h1 d (List.mem_cons_of_mem c hd), h2.2⟩
        have hc : pySpace c = false := hhead c (by simp)
        rw [skipWs, if_neg (by simp [hc])]
        exact congrArg (c :: ·) (ih.1 hrest)

theorem collapseWs_eq_self {cs : List Char} (h : WsNormd cs) :
    collapseWs cs = cs :=
  (collapseWs_eq_self_aux cs).1 h

theorem mem_stripWhile (p : Char → Bool) (cs : List Char) :
    ∀ c ∈ stripWhile p cs, c ∈ cs := by
  intro c hc
  unfold stripWhile at hc
  rw [List.mem_reverse] at hc
  have h1 := (List.dropWhile_sublist (l := (cs.dropWhile p).reverse) p).subset hc
  rw [List.mem_reverse] at h1
  exact (List.dropWhile_sublist p).subset h1

theorem chain'_dropWhile {R : Char → Char → Prop} (p : Char → Bool) :
    ∀ {l : List Char}, l.Chain' R → (l.dropWhile p).Chain' R
  | [], h => h
  | c :: rest, h => by
      rw [List.dropWhile]
      cases hp : p c
      · simpa using h
      · simp only [if_pos rfl]
        exact chain'_dropWhile p ((List.chain'_cons'.mp h).2)

theorem chain'_reverse_symm {R : Char → Char → Prop}
    (hsym : ∀ a b, R a b → R b a) {l : List Char} (h : l.Chain' R) :
    l.reverse.Chain' R := by
  rw [List.chain'_reverse]
  exact h.imp (fun a b hab => hsym a b hab)

/-- The relation used by `WsNormd` is symmetric. -/
theorem wsRel_symm (a b : Char) :
    ¬(pySpace a = true ∧ pySpace b = true) → ¬(pySpace b = true ∧ pySpace a = true) :=
  fun h hc => h ⟨hc.2, hc.1⟩

theorem wsNormd_stripWhile (p : Char → Bool) {cs : List Char}
    (h : WsNormd cs) : WsNormd (stripWhile p cs) := by
  refine ⟨fun c hc => h.1 c (mem_stripWhile p cs c hc), ?_⟩
  unfold stripWhile
  exact chain'_reverse_symm wsRel_symm
    (chain'_dropWhile p (chain'_reverse_symm wsRel_symm (chain'_dropWhile p h.2)))

theorem mem_byteTruncate (n : Nat) (cs : List Char) :
    ∀ c ∈ byteTruncate n cs, c ∈ cs := by
  induction cs generalizing n with
  | nil => intro c hc; simp [byteTruncate] at hc
  | cons c rest ih =>
      intro d hd
      rw [byteTruncate] at hd
      by_cases h : c.utf8Size ≤ n
      · rw [if_pos h] at hd
        rcases List.mem_cons.mp hd with h1 | h1
        · exact h1 ▸ List.mem_cons_self c rest
        · exact List.mem_cons_of_mem c (ih _ d h1)
      · rw [if_neg h] at hd
        simp at hd

theorem head?_byteTruncate (n : Nat) (cs : List Char) :
    byteTruncate n cs = [] ∨ (byteTruncate n cs).head? = cs.head? := by
  cases cs with
  | nil => exact Or.inl rfl
  | cons c rest =>
      rw [byteTruncate]
      by_cases h : c.utf8Size ≤ n
      · rw [if_pos h]; exact Or.inr rfl
      · rw [if_neg h]; exact Or.inl rfl

theorem chain'_byteTruncate {R : Char → Char → Prop} (n : Nat) {cs : List Char}
    (h : cs.Chain' R) : (byteTruncate n cs).Chain' R := by
  induction cs generalizing n with
  | nil => simp [byteTruncate]
  | cons c rest ih =>
      rw [byteTruncate]
      by_cases hn : c.utf8Size ≤ n
      · rw [if_pos hn]
        obtain ⟨hhd, htl⟩ := List.chain'_cons'.mp h
        rw [List.chain'_cons']
        refine ⟨?_, ih _ htl⟩
        intro y hy
        rcases head?_byteTruncate (n - c.utf8Size) rest with he | he
        · rw [he] at hy; simp at hy
        · exact hhd y (he ▸ hy)
      · rw [if_neg hn]; simp

theorem head?_takeWhile_mem {p : Char → Bool} {l : List Char} {y : Char}
    (h : (l.takeWhile p).head? = some y) : l.head? = some y := by
  cases l with
  | nil => simp [List.takeWhile] at h
  | cons c rest =>
      rw [List.takeWhile] at h
      cases hp : p c
      · rw [hp] at h; simp at h
      · rw [hp] at h; simpa using h

theorem chain'_takeWhile {R : Char → Char → Prop} (p : Char → Bool) :
    ∀ {l : List Char}, l.Chain' R → (l.takeWhile p).Chain' R
  | [], h => h
  | c :: rest, h => by
      rw [List.takeWhile]
      cases hp : p c
      · simp
      · simp only
        obtain ⟨hhd, htl⟩ := List.chain'_cons'.mp h
        rw [List.chain'_cons']
        refine ⟨?_, chain'_takeWhile p htl⟩
        intro y hy
        exact hhd y (head?_takeWhile_mem hy)

/-- Characters of the `rsplitDot` parts come from the split list. -/
theorem mem_rsplitDot {cs stem ext : List Char}
    (h : rsplitDot cs = some (stem, ext)) :
    (∀ c ∈ stem, c ∈ cs) ∧ (∀ c ∈ ext, c ∈ cs) := by
  unfold rsplitDot at h
  by_cases hdot : cs.contains '.'
  · rw [if_pos hdot] at h
    obtain ⟨h1, h2⟩ := Prod.mk.injEq .. ▸ (Option.some.injEq _ _ ▸ h)
    constructor
    · intro c hc
      rw [← h1, List.mem_reverse] at hc
      have := (List.drop_sublist 1 _).subset hc
      have := (List.dropWhile_sublist _).subset this
      rwa [List.mem_reverse] at this
    · intro c hc
      rw [← h2, List.mem_reverse] at hc
      have := (List.takeWhile_sublist _).subset hc
      rwa [List.mem_reverse] at this
  · rw [if_neg hdot] at h; simp at h

/-- The `rsplitDot` parts of a whitespace-normalized list are
whitespace-normalized. -/
theorem wsNormd_rsplitDot {cs stem ext : List Char}
    (hsplit : rsplitDot cs = some (stem, ext)) (h : WsNormd cs) :
    WsNormd stem ∧ WsNormd ext := by
  have hmem := mem_rsplitDot hsplit
  unfold rsplitDot at hsplit
  by_cases hdot : cs.contains '.'
  · rw [if_pos hdot] at hsplit
    obtain ⟨h1, h2⟩ := Prod.mk.injEq .. ▸ (Option.some.injEq _ _ ▸ hsplit)
    constructor
    · refine ⟨fun c hc => h.1 c (hmem.1 c hc), ?_⟩
      rw [← h1]
      refine chain'_reverse_symm wsRel_symm ?_
      rw [List.drop_one]
      exact (chain'_dropWhile _ (chain'_reverse_symm wsRel_symm h.2)).tail
    · refine ⟨fun c hc => h.1 c (hmem.2 c hc), ?_⟩
      rw [← h2]
      exact chain'_reverse_symm wsRel_symm
        (chain'_takeWhile _ (chain'_reverse_symm wsRel_symm h.2))
  · rw [if_neg hdot] at hsplit; simp at hsplit

theorem noIllegal_sanitizeStages (cs : List Char) :
    NoIllegal (sanitizeStages cs) := by
  simp only [sanitizeStages]
  have h2 : NoIllegal (replIllegal cs) := (replIllegal_noIllegal cs).1
  have h3 : NoIllegal (stripWhile pySpace (collapseWs (replIllegal cs))) := by
    intro c hc
    rcases (mem_collapseWs (replIllegal cs)).1 c (mem_stripWhile _ _ c hc) with h | h
    · exact h2 c h
    · subst h; decide
  have h4 : NoIllegal (stripWhile (· = '.') (stripWhile pySpace (collapseWs (replIllegal cs)))) :=
    fun c hc => h3 c (mem_stripWhile _ _ c hc)
  split
  · intro c hc
    rcases List.mem_cons.mp hc with h | h
    · subst h; decide
    · exact h4 c h
  · exact h4

theorem wsNormd_sanitizeStages (cs : List Char) :
    WsNormd (sanitizeStages cs) := by
  simp only [sanitizeStages]
  have h4 : WsNormd (stripWhile (· = '.') (stripWhile pySpace (collapseWs (replIllegal cs)))) :=
    wsNormd_stripWhile _ (wsNormd_stripWhile _ (collapseWs_wsNormd (replIllegal cs)).1)
  split
  · refine ⟨?_, ?_⟩
    · intro c hc hsp
      rcases List.mem_cons.mp hc with h | h
      · subst h; exact absurd hsp (by decide)
      · exact h4.1 c h hsp
    · rw [List.chain'_cons']
      refine ⟨?_, h4.2⟩
      intro y _ hcon
      exact absurd hcon.1 (by decide)
  · exact h4

theorem noIllegal_sanitizeTrunc {s5 : List Char} (h : NoIllegal s5) :
    NoIllegal (sanitizeTrunc s5) := by
  unfold sanitizeTrunc
  split
  · split
    · rename_i stem ext hsplit
      intro c hc
      rcases List.mem_append.mp hc with h1 | h1
      · exact h c ((mem_rsplitDot hsplit).1 c
          (mem_byteTruncate _ _ c h1))
      · rcases List.mem_cons.mp h1 with h2 | h2
        · subst h2; decide
        · exact h c ((mem_rsplitDot hsplit).2 c h2)
    · intro c hc
      exact h c (mem_byteTruncate _ _ c hc)
  · exact h

theorem wsNormd_sanitizeTrunc {s5 : List Char} (h : WsNormd s5) :
    WsNormd (sanitizeTrunc s5) := by
  unfold sanitizeTrunc
  split
  · split
    · rename_i stem ext hsplit
      obtain ⟨hstem, hext⟩ := wsNormd_rsplitDot hsplit h
      refine ⟨?_, ?_⟩
      · intro c hc hsp
        rcases List.mem_append.mp hc with h1 | h1
        · exact hstem.1 c (mem_byteTruncate _ _ c h1) hsp
        · rcases List.mem_cons.mp h1 with h2 | h2
          · subst h2; exact absurd hsp (by decide)
          · exact hext.1 c h2 hsp
      · rw [List.chain'_append]
        refine ⟨chain'_byteTruncate _ hstem.2, ?_, ?_⟩
        · rw [List.chain'_cons']
          refine ⟨?_, hext.2⟩
          intro y _ hcon
          exact absurd hcon.1 (by decide)
        · intro x _ y hy hcon
          rw [List.head?_cons] at hy
          cases hy
          exact absurd hcon.2 (by decide)
    · exact ⟨fun c hc => h.1 c (mem_byteTruncate _ _ c hc),
        chain'_byteTruncate _ h.2⟩
  · exact h

theorem untitled_data :
    "Untitled".data = ['U', 'n', 't', 'i', 't', 'l', 'e', 'd'] := rfl

theorem untitled_wsNormd : WsNormd "Untitled".data := by
  constructor
  · rw [untitled_data]
    decide
  · rw [untitled_data]
    simp only [List.chain'_cons, List.chain'_singleton, and_true]
    decide

theorem untitled_noIllegal : NoIllegal "Untitled".data := by
  intro c hc
  rw [untitled_data] at hc
  revert c
  decide

theorem noIllegal_sanitizeCore (cs : List Char) :
    NoIllegal (sanitizeCore cs) := by
  simp only [sanitizeCore]
  split
  · exact untitled_noIllegal
  · split
    · exact untitled_noIllegal
    · exact noIllegal_sanitizeTrunc (noIllegal_sanitizeStages cs)

theorem wsNormd_sanitizeCore (cs : List Char) :
    WsNormd (sanitizeCore cs) := by
  simp only [sanitizeCore]
  split
  · exact untitled_wsNormd
  · split
    · exact untitled_wsNormd
    · exact wsNormd_sanitizeTrunc (wsNormd_sanitizeStages cs)

theorem stripWhile_nil (p : Char → Bool) : stripWhile p [] = [] := rfl

theorem sanitizeCore_ne_nil (cs : List Char) : sanitizeCore cs ≠ [] := by
  simp only [sanitizeCore]
  split
  · simp
  · split
    · simp
    · rename_i hstrip
      intro hnil
      rw [hnil, stripWhile_nil] at hstrip
      simp at hstrip

theorem utf8Len_append (a b : List Char) :
    utf8Len (a ++ b) = utf8Len a + utf8Len b := by
  simp [utf8Len]

theorem utf8Len_byteTruncate_le (n : Nat) (cs : List Char) :
    utf8Len (byteTruncate n cs) ≤ n := by
  induction cs generalizing n with
  | nil => simp [byteTruncate, utf8Len]
  | cons c rest ih =>
      rw [byteTruncate]
      by_cases h : c.utf8Size ≤ n
      · rw [if_pos h]
        have := ih (n - c.utf8Size)
        simp only [utf8Len, List.map_cons, List.sum_cons]
        simp only [utf8Len] at this
        omega
      · rw [if_neg h]; simp [utf8Len]

/-- C2, counterexample: `sanitize_filename` is not idempotent.  On
`". x ."` the `.strip('.')` step exposes the surrounding spaces again, so
the first pass returns `" x "` and a second pass strips it to `"x"`. -/
theorem c2_counterexample :
    sanitize_filename (sanitize_filename ". x .") ≠ sanitize_filename ". x ." := by
  decide

/-- C2 (amended): `sanitize_filename x` is a fixed point of
`sanitize_filename` whenever the returned name is fully stripped (no
leading/trailing whitespace and no leading/trailing dot), its Windows
reserved-name check does not fire, and its UTF-8 length is within the
240-byte cap.  (The other steps are always identities on an output:
outputs never contain an illegal character and are whitespace-normalized.)
Without these conditions idempotence fails, e.g. on `". x ."`. -/
theorem c2_amended (x : String)
    (h1 : stripWhile pySpace (sanitize_filename x).data = (sanitize_filename x).data)
    (h2 : stripWhile (· = '.') (sanitize_filename x).data = (sanitize_filename x).data)
    (h3 : isReserved (checkNameOf (sanitize_filename x).data) = false)
    (h4 : utf8Len (sanitize_filename x).data ≤ MAX_FILENAME_LENGTH) :
    sanitize_filename (sanitize_filename x) = sanitize_filename x := by
  unfold sanitize_filename at *
  set r := sanitizeCore x.data with hr
  have hdata : (String.mk r).data = r := rfl
  rw [hdata] at h1 h2 h3 h4
  congr 1
  have hne : r ≠ [] := hr ▸ sanitizeCore_ne_nil x.data
  have hstages : sanitizeStages r = r := by
    simp only [sanitizeStages]
    rw [replIllegal_eq_self (hr ▸ noIllegal_sanitizeCore x.data),
        collapseWs_eq_self (hr ▸ wsNormd_sanitizeCore x.data), h1, h2,
        if_neg (by simp [h3])]
  have htrunc : sanitizeTrunc r = r := by
    unfold sanitizeTrunc
    rw [if_neg (by omega)]
  rw [hdata]
  simp only [sanitizeCore]
  rw [if_neg (by simpa using hne), hstages, htrunc,
      if_neg (by rw [h1]; simpa using hne)]

/-- C2, witness of the amended theorem at `"hello.txt"`. -/
theorem c2_witness :
    sanitize_filename (sanitize_filename "hello.txt") = sanitize_filename "hello.txt" :=
  c2_amended "hello.txt" (by decide) (by decide) (by decide) (by decide)

/-- C9, counterexample to the 240-byte cap: an extension of 240 bytes makes
`max_name_len = -1`, and the Python negative byte slice keeps all but the
last byte of the stem, producing a 242-byte result. -/
theorem c9_counterexample :
    MAX_FILENAME_LENGTH <
      utf8Len (sanitize_filename (String.mk ('a' :: 'b' :: '.' :: List.replicate 240 'b'))).data := by
  decide

/-- C9 (amended): the sanitized result never contains a forbidden character
(control characters and `\ / ? * : " < > |`); its UTF-8 byte length is at
most 240 whenever truncation is not needed or the preserved extension is at
most 239 bytes.  With a longer extension the cap can be exceeded
(see the counterexample). -/
theorem c9_amended (x : String) :
    NoIllegal (sanitize_filename x).data ∧
    (truncExtSafe x.data = true →
      utf8Len (sanitize_filename x).data ≤ MAX_FILENAME_LENGTH) := by
  constructor
  · exact noIllegal_sanitizeCore x.data
  · intro hsafe
    show utf8Len (sanitizeCore x.data) ≤ MAX_FILENAME_LENGTH
    simp only [sanitizeCore]
    split
    · decide
    · split
      · decide
      · show utf8Len (sanitizeTrunc (sanitizeStages x.data)) ≤ MAX_FILENAME_LENGTH
        unfold sanitizeTrunc
        by_cases hlong : utf8Len (sanitizeStages x.data) > MAX_FILENAME_LENGTH
        · rw [if_pos hlong]
          unfold truncExtSafe at hsafe
          rw [Bool.or_eq_true] at hsafe
          rcases hsafe with hsafe | hsafe
          · exfalso; simp only [decide_eq_true_eq] at hsafe; omega
          · cases hsp : rsplitDot (sanitizeStages x.data) with
            | none => exact utf8Len_byteTruncate_le _ _
            | some p =>
                obtain ⟨stem, ext⟩ := p
                rw [hsp] at hsafe
                simp only [decide_eq_true_eq] at hsafe
                simp only
                rw [utf8Len_append]
                have hext : utf8Len ext ≤ MAX_FILENAME_LENGTH - 1 := hsafe
                have hdotext : utf8Len ('.' :: ext) = 1 + utf8Len ext := by
                  simp only [utf8Len, List.map_cons, List.sum_cons]
                  have : ('.' : Char).utf8Size = 1 := rfl
                  omega
                have hslice :
                    utf8Len (pyByteSlice
                      ((MAX_FILENAME_LENGTH : Int) - 1 - (utf8Len ext : Int)) stem) ≤
                      MAX_FILENAME_LENGTH - 1 - utf8Len ext := by
                  simp only [pyByteSlice]
                  set k : Int := (MAX_FILENAME_LENGTH : Int) - 1 - (utf8Len ext : Int) with hk
                  have hk0 : 0 ≤ k := by
                    rw [hk]
                    simp only [MAX_FILENAME_LENGTH] at hext ⊢
                    omega
                  rw [if_pos hk0]
                  refine le_trans (utf8Len_byteTruncate_le _ _) ?_
                  have h1 : min k (utf8Len stem : Int) ≤ k := min_le_left _ _
                  have h2 : (min k (utf8Len stem : Int)).toNat ≤ k.toNat :=
                    Int.toNat_le_toNat h1
                  refine le_trans h2 ?_
                  rw [hk]
                  simp only [MAX_FILENAME_LENGTH] at hext ⊢
                  omega
                simp only [MAX_FILENAME_LENGTH] at hslice hdotext hext ⊢
                omega
        · rw [if_neg hlong]; omega

/-- C9, witness of the amended theorem at `"hello.txt"`. -/
theorem c9_witness :
    NoIllegal (sanitize_filename "hello.txt").data ∧
    utf8Len (sanitize_filename "hello.txt").data ≤ MAX_FILENAME_LENGTH :=
  ⟨(c9_amended "hello.txt").1, (c9_amended "hello.txt").2 (by decide)⟩

/-! ## StateManager theorems -/

/-- For `steps = s` no-op branches: the version contract holds trivially. -/
theorem smStep_contract_of_self (s : SMState) :
    (s.queue_state_version ≤ s.queue_state_version ∧
     s.history_state_version ≤ s.history_state_version ∧
     s.current_download_version ≤ s.current_download_version) ∧
    (s.queue ≠ s.queue → s.queue_state_version = s.queue_state_version + 1) ∧
    (s.history ≠ s.history → s.history_state_version = s.history_state_version + 1) ∧
    (s.current ≠ s.current ∨ s.paused ≠ s.paused →
      s.current_download_version = s.current_download_version + 1) :=
  ⟨⟨le_rfl, le_rfl, le_rfl⟩, fun h => absurd rfl h, fun h => absurd rfl h,
   fun h => h.elim (fun h => absurd rfl h) (fun h => absurd rfl h)⟩

/-- One mutator call: all three counters are monotone, and a counter is
incremented by exactly one whenever its section observably changed. -/
theorem smop_step_versions (op : SMOp) (s : SMState) :
    (s.queue_state_version ≤ (op.step s).queue_state_version ∧
     s.history_state_version ≤ (op.step s).history_state_version ∧
     s.current_download_version ≤ (op.step s).current_download_version) ∧
    ((op.step s).queue ≠ s.queue →
      (op.step s).queue_state_version = s.queue_state_version + 1) ∧
    ((op.step s).history ≠ s.history →
      (op.step s).history_state_version = s.history_state_version + 1) ∧
    ((op.step s).current ≠ s.current ∨ (op.step s).paused ≠ s.paused →
      (op.step s).current_download_version = s.current_download_version + 1) := by
  cases op with
  | opResetCurrent =>
      exact ⟨⟨le_rfl, le_rfl, Nat.le_succ _⟩, fun h => absurd rfl h,
        fun h => absurd rfl h, fun _ => rfl⟩
  | opUpdateCurrent data =>
      exact ⟨⟨le_rfl, le_rfl, Nat.le_succ _⟩, fun h => absurd rfl h,
        fun h => absurd rfl h, fun _ => rfl⟩
  | opPause =>
      exact ⟨⟨le_rfl, le_rfl, Nat.le_succ _⟩, fun h => absurd rfl h,
        fun h => absurd rfl h, fun _ => rfl⟩
  | opResume =>
      exact ⟨⟨le_rfl, le_rfl, Nat.le_succ _⟩, fun h => absurd rfl h,
        fun h => absurd rfl h, fun _ => rfl⟩
  | opAddToQueue j =>
      exact ⟨⟨Nat.le_succ _, le_rfl, le_rfl⟩, fun _ => rfl,
        fun h => absurd rfl h, fun h => h.elim (fun h => absurd rfl h) (fun h => absurd rfl h)⟩
  | opClearQueue =>
      simp only [SMOp.step]
      unfold clearQueue
      by_cases hq : s.queue.isEmpty
      · rw [if_pos hq]
        exact smStep_contract_of_self s
      · rw [if_neg hq]
        exact ⟨⟨Nat.le_succ _, le_rfl, le_rfl⟩, fun _ => rfl,
          fun h => absurd rfl h, fun h => h.elim (fun h => absurd rfl h) (fun h => absurd rfl h)⟩
  | opDeleteFromQueue jid =>
      simp only [SMOp.step]
      unfold deleteFromQueue
      dsimp only
      by_cases hlen : (s.queue.filter (fun j => j.id ≠ jid)).length < s.queue.length
      · rw [if_pos hlen]
        exact ⟨⟨Nat.le_succ _, le_rfl, le_rfl⟩, fun _ => rfl,
          fun h => absurd rfl h, fun h => h.elim (fun h => absurd rfl h) (fun h => absurd rfl h)⟩
      · rw [if_neg hlen]
        exact smStep_contract_of_self s
  | opReorderQueue ids =>
      exact ⟨⟨Nat.le_succ _, le_rfl, le_rfl⟩, fun _ => rfl,
        fun h => absurd rfl h, fun h => h.elim (fun h => absurd rfl h) (fun h => absurd rfl h)⟩
  | opAddToHistory item =>
      exact ⟨⟨le_rfl, Nat.le_succ _, le_rfl⟩, fun h => absurd rfl h,
        fun _ => rfl, fun h => h.elim (fun h => absurd rfl h) (fun h => absurd rfl h)⟩
  | opUpdateHistoryItem lid data =>
      simp only [SMOp.step]
      unfold updateHistoryItem
      cases hfind : s.history.findIdx? (fun it => hasLogId it lid) with
      | none =>
          exact smStep_contract_of_self s
      | some i =>
          exact ⟨⟨le_rfl, Nat.le_succ _, le_rfl⟩, fun h => absurd rfl h,
            fun _ => rfl, fun h => h.elim (fun h => absurd rfl h) (fun h => absurd rfl h)⟩
  | opClearHistory =>
      simp only [SMOp.step]
      unfold clearHistory
      by_cases hh : s.history.isEmpty
      · rw [if_pos hh]
        exact smStep_contract_of_self s
      · rw [if_neg hh]
        exact ⟨⟨le_rfl, Nat.le_succ _, le_rfl⟩, fun h => absurd rfl h,
          fun _ => rfl, fun h => h.elim (fun h => absurd rfl h) (fun h => absurd rfl h)⟩
  | opDeleteFromHistory lid =>
      simp only [SMOp.step]
      unfold deleteFromHistory
      by_cases hh : s.history.any (fun it => hasLogId it lid)
      · rw [if_pos hh]
        exact ⟨⟨le_rfl, Nat.le_succ _, le_rfl⟩, fun h => absurd rfl h,
          fun _ => rfl, fun h => h.elim (fun h => absurd rfl h) (fun h => absurd rfl h)⟩
      · rw [if_neg hh]
        exact smStep_contract_of_self s

/-- Any sequence of mutator calls leaves every version counter at least as
large as before. -/
theorem runOps_versions (ops : List SMOp) (s : SMState) :
    s.queue_state_version ≤ (runOps ops s).queue_state_version ∧
    s.history_state_version ≤ (runOps ops s).history_state_version ∧
    s.current_download_version ≤ (runOps ops s).current_download_version := by
  induction ops generalizing s with
  | nil => exact ⟨le_rfl, le_rfl, le_rfl⟩
  | cons op rest ih =>
      have h1 := (smop_step_versions op s).1
      have h2 := ih (op.step s)
      exact ⟨le_trans h1.1 h2.1, le_trans h1.2.1 h2.2.1, le_trans h1.2.2 h2.2.2⟩

/-- C3 (amended): every mutator that observably changes its section (queue,
history, or current-download/pause state) increments the corresponding
version counter by exactly one, counters never decrease across any sequence
of mutator calls, and calling `clear_queue` twice bumps the queue counter at
most once.  The claim's further clause — that a mutator leaves its counter
unchanged when nothing observable changed — is false: for example
`reorder_queue` always bumps (see the counterexample). -/
theorem c3_amended :
    (∀ (op : SMOp) (s : SMState),
      (s.queue_state_version ≤ (op.step s).queue_state_version ∧
       s.history_state_version ≤ (op.step s).history_state_version ∧
       s.current_download_version ≤ (op.step s).current_download_version) ∧
      ((op.step s).queue ≠ s.queue →
        (op.step s).queue_state_version = s.queue_state_version + 1) ∧
      ((op.step s).history ≠ s.history →
        (op.step s).history_state_version = s.history_state_version + 1) ∧
      ((op.step s).current ≠ s.current ∨ (op.step s).paused ≠ s.paused →
        (op.step s).current_download_version = s.current_download_version + 1)) ∧
    (∀ (ops : List SMOp) (s : SMState),
      s.queue_state_version ≤ (runOps ops s).queue_state_version ∧
      s.history_state_version ≤ (runOps ops s).history_state_version ∧
      s.current_download_version ≤ (runOps ops s).current_download_version) ∧
    (∀ s : SMState,
      (clearQueue (clearQueue s)).queue_state_version ≤ s.queue_state_version + 1) := by
  refine ⟨smop_step_versions, runOps_versions, ?_⟩
  intro s
  unfold clearQueue
  by_cases hq : s.queue.isEmpty
  · rw [if_pos hq, if_pos hq]
    omega
  · rw [if_neg hq]
    rw [if_pos (show (List.isEmpty ([] : List QJob)) = true from rfl)]

/-- C3, counterexample to the "unchanged when nothing observable changed"
clause: `reorder_queue([])` on a fresh (empty-queue) manager changes nothing
observable yet bumps `queue_state_version` from 0 to 1. -/
theorem c3_counterexample :
    (reorderQueue SMState.init []).queue = SMState.init.queue ∧
    (reorderQueue SMState.init []).history = SMState.init.history ∧
    (reorderQueue SMState.init []).current = SMState.init.current ∧
    (reorderQueue SMState.init []).paused = SMState.init.paused ∧
    (reorderQueue SMState.init []).queue_state_version =
      SMState.init.queue_state_version + 1 := by
  decide

/-- C3, witness: an observable queue change (an enqueue on a fresh manager)
makes the amended theorem yield the exact one-step bump. -/
theorem c3_witness :
    ((SMOp.opAddToQueue ⟨0, []⟩).step SMState.init).queue_state_version =
      SMState.init.queue_state_version + 1 :=
  (c3_amended.1 (SMOp.opAddToQueue ⟨0, []⟩) SMState.init).2.1 (by decide)

/-- C6 (amended): `add_to_queue` assigns the new job the current value of the
per-process counter `next_queue_id` — not `1 + max(id in queue)` — appends
the stamped job, and advances the counter; `clear_queue`,
`delete_from_queue` and `reorder_queue` never reset the counter.  The
counter equals `1 + max(queue ids)` (or 0 when empty) only until a job is
removed. -/
theorem c6_amended (s : SMState) (j : QJob) :
    (addToQueue s j).2 = s.next_queue_id ∧
    (addToQueue s j).1.queue = s.queue ++ [{ j with id := s.next_queue_id }] ∧
    (addToQueue s j).1.next_queue_id = s.next_queue_id + 1 ∧
    (clearQueue s).next_queue_id = s.next_queue_id ∧
    (∀ i : Int, (deleteFromQueue s i).next_queue_id = s.next_queue_id) ∧
    (∀ ids : List Int, (reorderQueue s ids).next_queue_id = s.next_queue_id) := by
  refine ⟨rfl, rfl, rfl, ?_, ?_, fun _ => rfl⟩
  · unfold clearQueue; split <;> rfl
  · intro i; unfold deleteFromQueue; dsimp only; split <;> rfl

/-- C6, counterexample: enqueue one job (id 0), clear the queue, enqueue
again.  The queue is empty before the second enqueue, so by the claim the
new id should be 0; the code assigns 1, because `next_queue_id` is a
counter that `clear_queue` does not reset. -/
theorem c6_counterexample :
    (clearQueue (addToQueue SMState.init ⟨0, []⟩).1).queue = [] ∧
    (addToQueue (clearQueue (addToQueue SMState.init ⟨0, []⟩).1) ⟨0, []⟩).2 = 1 := by
  decide

/-- C10: within a process lifetime the log ids handed out by
`add_to_history` are strictly increasing: each call returns the current
`next_log_id` and advances it, `delete_from_history` and `clear_history`
leave `next_log_id` untouched, no mutator ever decreases it, and a later
`add_to_history` (after any sequence of mutator calls, including deletes and
clears) returns a strictly larger id than any earlier one. -/
theorem c10_log_ids_strictly_increasing :
    (∀ (s : SMState) (item : PyDict),
      (addToHistory s item).2 = s.next_log_id ∧
      (addToHistory s item).1.next_log_id = s.next_log_id + 1) ∧
    (∀ (s : SMState) (lid : Int),
      (deleteFromHistory s lid).next_log_id = s.next_log_id) ∧
    (∀ s : SMState, (clearHistory s).next_log_id = s.next_log_id) ∧
    (∀ (op : SMOp) (s : SMState), s.next_log_id ≤ (op.step s).next_log_id) ∧
    (∀ (s : SMState) (item item2 : PyDict) (ops : List SMOp),
      (addToHistory s item).2 <
        (addToHistory (runOps ops (addToHistory s item).1) item2).2) := by
  have hstep : ∀ (op : SMOp) (s : SMState), s.next_log_id ≤ (op.step s).next_log_id := by
    intro op s
    cases op with
    | opResetCurrent => exact le_rfl
    | opUpdateCurrent data => exact le_rfl
    | opPause => exact le_rfl
    | opResume => exact le_rfl
    | opAddToQueue j => exact le_rfl
    | opClearQueue =>
        show s.next_log_id ≤ (clearQueue s).next_log_id
        unfold clearQueue; split <;> exact le_rfl
    | opDeleteFromQueue jid =>
        show s.next_log_id ≤ (deleteFromQueue s jid).next_log_id
        unfold deleteFromQueue; dsimp only; split <;> exact le_rfl
    | opReorderQueue ids => exact le_rfl
    | opAddToHistory item =>
        show s.next_log_id ≤ s.next_log_id + 1
        omega
    | opUpdateHistoryItem lid data =>
        show s.next_log_id ≤ (updateHistoryItem s lid data).next_log_id
        unfold updateHistoryItem
        cases hfind : s.history.findIdx? (fun it => hasLogId it lid) <;>
          simp only [hfind] <;> exact le_rfl
    | opClearHistory =>
        show s.next_log_id ≤ (clearHistory s).next_log_id
        unfold clearHistory; split <;> exact le_rfl
    | opDeleteFromHistory lid =>
        show s.next_log_id ≤ (deleteFromHistory s lid).next_log_id
        unfold deleteFromHistory; split <;> exact le_rfl
  have hrun : ∀ (ops : List SMOp) (s : SMState),
      s.next_log_id ≤ (runOps ops s).next_log_id := by
    intro ops
    induction ops with
    | nil => exact fun s => le_rfl
    | cons op rest ih => exact fun s => le_trans (hstep op s) (ih (op.step s))
  refine ⟨fun s item => ⟨rfl, rfl⟩, ?_, ?_, hstep, ?_⟩
  · intro s lid
    unfold deleteFromHistory; split <;> rfl
  · intro s
    unfold clearHistory; split <;> rfl
  · intro s item item2 ops
    have h1 : (addToHistory s item).1.next_log_id = s.next_log_id + 1 := rfl
    have h2 := hrun ops (addToHistory s item).1
    show s.next_log_id < (runOps ops (addToHistory s item).1).next_log_id
    omega

/-- When queue ids are distinct, `find?` by a member's id returns exactly
that member. -/
theorem find?_id_eq {l : List QJob} (hnd : (l.map QJob.id).Nodup)
    {j : QJob} (hj : j ∈ l) :
    l.find? (fun it => it.id == j.id) = some j := by
  induction l with
  | nil => simp at hj
  | cons a rest ih =>
      rw [List.map_cons, List.nodup_cons] at hnd
      by_cases ha : (a.id == j.id) = true
      · have hstep : List.find? (fun it => it.id == j.id) (a :: rest) = some a :=
          List.find?_cons_of_pos rest ha
        rw [hstep]
        rcases List.mem_cons.mp hj with h | h
        · rw [h]
        · exfalso
          have heq : a.id = j.id := by simpa using ha
          have hmem : j.id ∈ rest.map QJob.id := List.mem_map_of_mem QJob.id h
          rw [← heq] at hmem
          exact hnd.1 hmem
      · have hstep : List.find? (fun it => it.id == j.id) (a :: rest) =
            List.find? (fun it => it.id == j.id) rest :=
          List.find?_cons_of_neg rest ha
        rw [hstep]
        rcases List.mem_cons.mp hj with h | h
        · exfalso; rw [h] at ha; simp at ha
        · exact ih hnd.2 h

/-- `item_map[j.id]` is `j` itself when queue ids are distinct. -/
theorem lookupById_self {items : List QJob} (hnd : (items.map QJob.id).Nodup)
    {j : QJob} (hj : j ∈ items) : lookupById items j.id = some j := by
  unfold lookupById
  have hrev : (items.reverse.map QJob.id).Nodup := by
    rw [List.map_reverse]
    exact List.nodup_reverse.mpr hnd
  exact find?_id_eq hrev (List.mem_reverse.mpr hj)

/-- A successful `item_map` lookup returns a queued job with the looked-up id. -/
theorem lookupById_props {items : List QJob} {i : Int} {j : QJob}
    (h : lookupById items i = some j) : j ∈ items ∧ j.id = i := by
  unfold lookupById at h
  refine ⟨List.mem_reverse.mp (List.mem_of_find?_eq_some h), ?_⟩
  have := List.find?_some h
  simpa using this

/-- Occurrences of a queued job among the "mentioned" part built by
`reorder_queue`: one per occurrence of its id in `ordered_ids`, hence
exactly one under the no-duplicates hypotheses. -/
theorem count_mentioned {items : List QJob} (hnd : (items.map QJob.id).Nodup)
    {j : QJob} (hj : j ∈ items) :
    ∀ ids : List Int, ids.Nodup →
      (ids.filterMap (lookupById items)).count j = if j.id ∈ ids then 1 else 0 := by
  intro ids
  induction ids with
  | nil => intro _; simp
  | cons i rest ih =>
      intro hids
      rw [List.nodup_cons] at hids
      rw [List.filterMap_cons]
      by_cases hji : j.id = i
      · have hl : lookupById items i = some j := hji ▸ lookupById_self hnd hj
        rw [hl]
        have hnotin : j.id ∉ rest := hji ▸ hids.1
        rw [List.count_cons_self, ih hids.2, if_neg hnotin,
          if_pos (by rw [hji]; exact List.mem_cons_self i rest)]
      · cases hl : lookupById items i with
        | none =>
            rw [ih hids.2]
            by_cases hmem : j.id ∈ rest
            · rw [if_pos hmem, if_pos (List.mem_cons_of_mem i hmem)]
            · rw [if_neg hmem, if_neg (by simp [hji, hmem])]
        | some k =>
            have hk := lookupById_props hl
            have hkj : j ≠ k := fun he => hji (he ▸ hk.2)
            rw [List.count_cons_of_ne hkj, ih hids.2]
            by_cases hmem : j.id ∈ rest
            · rw [if_pos hmem, if_pos (List.mem_cons_of_mem i hmem)]
            · rw [if_neg hmem, if_neg (by simp [hji, hmem])]

/-- Occurrences of a queued job among the "unmentioned" tail built by
`reorder_queue`. -/
theorem count_unmentioned {items : List QJob} (hnd : (items.map QJob.id).Nodup)
    {j : QJob} (hj : j ∈ items) (ids : List Int) :
    (items.filter (fun it => ¬ ids.contains it.id)).count j =
      if j.id ∈ ids then 0 else 1 := by
  by_cases hmem : j.id ∈ ids
  · rw [if_pos hmem, List.count_eq_zero]
    intro hcon
    have h2 := (List.mem_filter.mp hcon).2
    simp only [decide_eq_true_eq] at h2
    exact h2 (List.elem_iff.mpr hmem)
  · rw [if_neg hmem]
    have h1 : List.count j items = 1 :=
      List.count_eq_one_of_mem (List.Nodup.of_map _ hnd) hj
    rw [List.count_filter
      (by simp only [decide_eq_true_eq]
          exact fun hcon => hmem (List.elem_iff.mp hcon)), h1]

/-- C7 (amended): when the queued jobs have pairwise-distinct ids and
`ordered_ids` has no duplicates, `reorder_queue` keeps every previously
queued job exactly once (mentioned known ids first in the given order,
then the unmentioned jobs in their prior order) and introduces nothing
else.  With a duplicated known id in `ordered_ids` the job is kept once
per occurrence (see the counterexample), refuting the unconditional claim. -/
theorem c7_amended (s : SMState) (ids : List Int)
    (hnd : (s.queue.map QJob.id).Nodup) (hids : ids.Nodup) :
    (∀ j ∈ s.queue, (reorderQueue s ids).queue.count j = 1) ∧
    (∀ j ∈ (reorderQueue s ids).queue, j ∈ s.queue) := by
  constructor
  · intro j hj
    show (reorderList s.queue ids).count j = 1
    unfold reorderList
    rw [List.count_append, count_mentioned hnd hj ids hids,
      count_unmentioned hnd hj ids]
    by_cases h : j.id ∈ ids <;> simp [h]
  · intro j hj
    rcases List.mem_append.mp hj with h | h
    · obtain ⟨i, _, hl⟩ := List.mem_filterMap.mp h
      exact (lookupById_props hl).1
    · exact (List.mem_filter.mp h).1

/-- C7, counterexample: with `ordered_ids = [0, 0]` the job with id 0 is
emitted twice by the dict-comprehension rebuild, so a previously queued job
no longer appears exactly once. -/
theorem c7_counterexample :
    (⟨0, []⟩ : QJob) ∈ ({ SMState.init with queue := [⟨0, []⟩, ⟨1, []⟩] } : SMState).queue ∧
    (reorderQueue { SMState.init with queue := [⟨0, []⟩, ⟨1, []⟩] } [0, 0]).queue.count ⟨0, []⟩ = 2 := by
  decide

/-- C7, witness of the amended theorem on a two-job queue reordered by
`[1, 0, 5]` (the unknown id 5 is skipped). -/
theorem c7_witness :
    (reorderQueue { SMState.init with queue := [⟨0, []⟩, ⟨1, []⟩] } [1, 0, 5]).queue.count ⟨0, []⟩ = 1 :=
  (c7_amended { SMState.init with queue := [⟨0, []⟩, ⟨1, []⟩] } [1, 0, 5]
    (by decide) (by decide)).1 ⟨0, []⟩ (by decide)

/-! ## Scheduler theorem -/

/-- C1: the fire handler crashes instead of enqueuing.  For an existing
Scythe with non-empty `job_data` and an enabled schedule, `_reap_scythe`
reaches `state_manager.add_notification_to_history(...)` — an attribute
`StateManager` does not define — and dies with `AttributeError` before
`add_to_queue` runs, so neither the queue nor the history changes (the
returned state equals the input state).  The skip paths the claim describes
(missing Scythe, disabled schedule) do behave as claimed. -/
theorem c1_reap_scythe_attribute_error :
    (reapScythe
      (fun i => if i = 0 then
        some ⟨0, "nightly",
          [("url", .pystr "https://example/v/1"), ("mode", .pystr "music"),
           ("folder", .pystr "nightly")],
          some [("enabled", .pybool true), ("interval", .pystr "daily"),
                ("time", .pystr "02:00")]⟩
       else none) 0 SMState.init
      = (.attributeError, SMState.init)) ∧
    (reapScythe (fun _ => none) 0 SMState.init = (.skippedMissing, SMState.init)) ∧
    (reapScythe
      (fun i => if i = 0 then
        some ⟨0, "nightly", [("url", .pystr "https://example/v/1")],
          some [("enabled", .pybool false)]⟩
       else none) 0 SMState.init
      = (.skippedDisabled, SMState.init)) := by
  refine ⟨?_, rfl, ?_⟩ <;> decide

/-! ## Finalize theorems -/

/-- The second component of the move loop is exactly the sanitized names of
the files selected for moving, in order. -/
theorem moveFiles_snd_aux (toMove : List String) :
    ∀ (d acc : List String),
      (toMove.foldl
        (fun a f => (fsMoveInto a.1 (sanitize_filename f), a.2 ++ [sanitize_filename f]))
        (d, acc)).2 = acc ++ toMove.map sanitize_filename := by
  induction toMove with
  | nil => intro d acc; simp
  | cons f rest ih =>
      intro d acc
      rw [List.foldl_cons, List.map_cons]
      rw [ih]
      simp

theorem moveFiles_snd (destInit toMove : List String) :
    (moveFiles destInit toMove).2 = toMove.map sanitize_filename :=
  moveFiles_snd_aux toMove destInit []

/-- C4 (amended): the media-move step of `_finalize_job` runs for every
terminal status — there is no status check — so `filenames` is always the
sanitized list of scratch files matching the expected extension, and the
promoted destination contents are independent of the incoming status
(including CANCELLED, FAILED, ERROR and ABANDONED). -/
theorem c4_amended (job : FJob) (st : String) (rf : Option String)
    (scr : Option (List String)) (destInit : List String) :
    ((finalizeJob job st rf scr destInit).filenames =
      match scr with
      | none => []
      | some files => (filesToMove job files).map sanitize_filename) ∧
    (finalizeJob job st rf scr destInit).filenames =
      (finalizeJob job "COMPLETED" rf scr destInit).filenames ∧
    (finalizeJob job st rf scr destInit).dest =
      (finalizeJob job "COMPLETED" rf scr destInit).dest := by
  refine ⟨?_, rfl, rfl⟩
  cases scr with
  | none => rfl
  | some files =>
      show (moveFiles destInit (filesToMove job files)).2 = _
      rw [moveFiles_snd]

/-- C4, counterexample: a CANCELLED music job with `track.mp3` in scratch
still promotes the file — the claim says nothing is promoted and
`filenames` stays empty for CANCELLED. -/
theorem c4_counterexample :
    (finalizeJob ⟨0, some "music", some "mp3"⟩ "CANCELLED" (some "music")
      (some ["track.mp3"]) []).filenames = ["track.mp3"] ∧
    (finalizeJob ⟨0, some "music", some "mp3"⟩ "CANCELLED" (some "music")
      (some ["track.mp3"]) []).dest = ["track.mp3"] := by
  decide

/-- C5 (amended): on a name collision `_finalize_job` silently overwrites
the existing destination file (`shutil.move` / `os.rename` semantics); no
`" (n)"` suffix is ever generated, the moved file keeps its sanitized name,
and the destination listing is unchanged. -/
theorem c5_amended (job : FJob) (st : String) (rf : Option String)
    (f : String) (destInit : List String)
    (hmatch : filesToMove job [f] = [f])
    (hcol : destInit.contains (sanitize_filename f) = true) :
    (finalizeJob job st rf (some [f]) destInit).dest = destInit ∧
    (finalizeJob job st rf (some [f]) destInit).filenames = [sanitize_filename f] := by
  have hmv : moveFiles destInit [f] = (destInit, [sanitize_filename f]) := by
    show (fsMoveInto destInit (sanitize_filename f), [] ++ [sanitize_filename f]) = _
    unfold fsMoveInto
    rw [if_pos hcol]
    rfl
  have hfil : [f].filter (fun x => ¬ ([f].contains x)) = [] := by
    simp [List.filter]
  constructor
  · simp only [finalizeJob]
    simp only [hmatch, hfil, hmv]
    rw [if_neg (by decide)]
  · simp only [finalizeJob]
    simp only [hmatch, hmv]

/-- C5, witness of the amended theorem: a second `track.mp3` lands on a
destination already holding `track.mp3` and the listing is unchanged. -/
theorem c5_witness :
    (finalizeJob ⟨1, some "music", some "mp3"⟩ "COMPLETED" (some "music")
      (some ["track.mp3"]) ["track.mp3"]).dest = ["track.mp3"] ∧
    (finalizeJob ⟨1, some "music", some "mp3"⟩ "COMPLETED" (some "music")
      (some ["track.mp3"]) ["track.mp3"]).filenames = ["track.mp3"] := by
  have h := c5_amended ⟨1, some "music", some "mp3"⟩ "COMPLETED" (some "music")
    "track.mp3" ["track.mp3"] (by decide) (by decide)
  exact ⟨h.1, h.2⟩

/-- C5, counterexample: two jobs each producing `track.mp3` into the same
folder leave a single `track.mp3`; no `track (1).mp3` is created, contrary
to the claim. -/
theorem c5_counterexample :
    (finalizeJob ⟨1, some "music", some "mp3"⟩ "COMPLETED" (some "music")
      (some ["track.mp3"])
      (finalizeJob ⟨0, some "music", some "mp3"⟩ "COMPLETED" (some "music")
        (some ["track.mp3"]) []).dest).dest = ["track.mp3"] ∧
    "track (1).mp3" ∉
      (finalizeJob ⟨1, some "music", some "mp3"⟩ "COMPLETED" (some "music")
        (some ["track.mp3"])
        (finalizeJob ⟨0, some "music", some "mp3"⟩ "COMPLETED" (some "music")
          (some ["track.mp3"]) []).dest).dest := by
  decide

/-- The moved name is present after `fsMoveInto`. -/
theorem mem_fsMoveInto_self (dir : List String) (name : String) :
    name ∈ fsMoveInto dir name := by
  unfold fsMoveInto
  by_cases h : dir.contains name
  · rw [if_pos h]
    exact List.elem_iff.mp h
  · rw [if_neg h]
    exact List.mem_append_right dir (List.mem_singleton.mpr rfl)

/-- C8 (amended): whenever `archive.temp.txt` is in scratch and is not
captured by the media-extension filter (true for every genuine media
format — only a job whose expected extension is `txt` or `temp.txt` can
capture it), finalize moves it to `dest/archive.txt` and removes the
scratch directory, for every terminal status. -/
theorem c8_amended (job : FJob) (st : String) (rf : Option String)
    (files destInit : List String)
    (hin : "archive.temp.txt" ∈ files)
    (hnotmedia : "archive.temp.txt" ∉ filesToMove job files) :
    "archive.txt" ∈ (finalizeJob job st rf (some files) destInit).dest ∧
    (finalizeJob job st rf (some files) destInit).scratch = none := by
  refine ⟨?_, rfl⟩
  have harch : (files.filter
      (fun x => ¬ (filesToMove job files).contains x)).contains "archive.temp.txt" = true := by
    apply List.elem_iff.mpr
    apply List.mem_filter.mpr
    refine ⟨hin, ?_⟩
    simp only [decide_eq_true_eq]
    exact fun hcon => hnotmedia (List.elem_iff.mp hcon)
  simp only [finalizeJob]
  rw [if_pos harch]
  exact mem_fsMoveInto_self _ _

/-- C8, witness of the amended theorem: a CANCELLED music/mp3 job with a
pending `archive.temp.txt` still gets `dest/archive.txt`. -/
theorem c8_witness :
    "archive.txt" ∈ (finalizeJob ⟨0, some "music", some "mp3"⟩ "CANCELLED"
      (some "m") (some ["a.mp3", "archive.temp.txt"]) []).dest ∧
    (finalizeJob ⟨0, some "music", some "mp3"⟩ "CANCELLED"
      (some "m") (some ["a.mp3", "archive.temp.txt"]) []).scratch = none :=
  c8_amended ⟨0, some "music", some "mp3"⟩ "CANCELLED" (some "m")
    ["a.mp3", "archive.temp.txt"] [] (by decide) (by decide)

/-- C8, counterexample: a music job with `format = "txt"` makes the media
filter capture `archive.temp.txt` itself (it ends in `.txt`), so it is
promoted under its own name and `dest/archive.txt` is never created —
refuting the "for every finalize run" quantification. -/
theorem c8_counterexample :
    "archive.txt" ∉ (finalizeJob ⟨0, some "music", some "txt"⟩ "COMPLETED"
      (some "m") (some ["archive.temp.txt"]) []).dest ∧
    (finalizeJob ⟨0, some "music", some "txt"⟩ "COMPLETED"
      (some "m") (some ["archive.temp.txt"]) []).dest = ["archive.temp.txt"] := by
  decide

end ContentReaper
